import Mathlib

/-!
Verification of the `dice` command-line program (src/main.rs).

The program parses dice-notation tokens with the anchored regex
`^(?P<count>\d*)d(?P<sides>\d+)$`, builds a `Dice { count: u32, sides: u32 }`
descriptor, rolls `count` uniform samples with `rng.gen_range(1, sides + 1)`,
and renders either the raw roll vector (Rust `Debug` format) or an aggregate
(sum / avg / max / min) of the rolls.

The embedding below models tokens as `List Char`.  The regex class `\d` is,
by the regex crate's default, the Unicode category Nd; it is modelled in
full by `isRegexDigit`, and `isDigitCh` is its ASCII restriction, which is
also exactly the digit set accepted by Rust's `u32::from_str`.  The full
parser model is `Dice.from_str_full`; `Dice.from_str` is its restriction to
ASCII tokens (the two agree there, `from_str_full_eq_ascii`), and the
theorems stated on `Dice.from_str` are confined to ASCII fields by their
`splitToken`-acceptance hypotheses.  `u32` values are `Nat` with explicit
`% 2^32` where overflow matters, and
panics as a distinguished result constructor (`FromStrResult.panicked`) or
`Option.none` (for `roll`).  The thread-local random generator is injected as
a draw stream `rng : Nat → Nat`; `gen_range lo hi` maps the i-th raw draw `r`
to `lo + r % (hi - lo)` (uniform on `[lo, hi)` for uniform `r`) and, as in
`rand`, aborts when `lo ≥ hi`.
-/

namespace DiceProg

/-- ASCII decimal digit test: the digit set accepted by Rust's
`u32::from_str`, and the ASCII restriction of the regex class `\d`
(whose full Unicode form is `isRegexDigit` below). -/
def isDigitCh (c : Char) : Bool := 48 ≤ c.toNat && c.toNat ≤ 57

/-- Numeric value of a digit character. -/
def digitVal (c : Char) : Nat := c.toNat - 48

/-- Value of a digit string, as Rust's `u32::from_str` computes it
(left fold, most significant digit first); the u32 range check is made
separately at each call site, as the caller's `parse::<u32>()` does. -/
def parseDigits (l : List Char) : Nat := l.foldl (fun a c => a * 10 + digitVal c) 0

/-- `2^32`: the first value that no longer fits in a `u32`. -/
def U32_LIM : Nat := 4294967296

/-- The descriptor struct `Dice { count: u32, sides: u32 }` of src/main.rs. -/
structure Dice where
  count : Nat
  sides : Nat
deriving DecidableEq

/-- `ParseDieError` of src/main.rs: a single variant carrying a message. -/
inductive ParseDieError
  | InvalidFormat (msg : String)
deriving DecidableEq

/-- Outcome of `Dice::from_str`: a descriptor, a returned `Err`, or a panic
(Rust process abort), which the Rust `Result` type cannot carry. -/
inductive FromStrResult
  | ok (d : Dice)
  | err (e : ParseDieError)
  | panicked (msg : String)
deriving DecidableEq

/-- `Dice::new` (src/main.rs lines 65-73): panics (modelled as `.error`)
when `count == 0` or `sides == 0`, otherwise builds the struct. -/
def Dice.new (count sides : Nat) : Except String Dice :=
  if count = 0 then .error "count must be greater than 0"
  else if sides = 0 then .error "sides must be greater than 0"
  else .ok ⟨count, sides⟩

/-- The anchored match of `^(?P<count>\d*)d(?P<sides>\d+)$` restricted to an
ASCII token: because `d` is not a digit, the only possible decomposition
takes the maximal digit prefix as `count`, requires the next character to be
`d`, and requires the nonempty remainder to be all digits (`sides`).  The
Unicode-complete match is `splitTokenFull` below; on ASCII tokens the two
agree (`splitTokenFull_eq_ascii`). -/
def splitToken (s : List Char) : Option (List Char × List Char) :=
  match s.dropWhile isDigitCh with
  | [] => none
  | a :: rest =>
    if a = 'd' ∧ rest ≠ [] ∧ rest.all isDigitCh then some (s.takeWhile isDigitCh, rest)
    else none

/-- `Dice::from_str` after the count field has been parsed (src/main.rs
lines 113-124): the `count < 1` check, then the parse of the sides field
whose `Err` is `.unwrap()`ed (u32 overflow → panic), and finally `Dice::new`
whose `count`/`sides` zero checks panic. -/
def fromStrWithCount (count : Nat) (sidesStr : List Char) : FromStrResult :=
  if count < 1 then .err (.InvalidFormat "count must be at least 1")
  else if parseDigits sidesStr < U32_LIM then
    match Dice.new count (parseDigits sidesStr) with
    | .ok d => .ok d
    | .error m => .panicked m
  else .panicked "called unwrap on an Err value"

/-- `Dice::from_str` (src/main.rs lines 91-125) restricted to ASCII tokens.
In order: regex match (failure → `Err(InvalidFormat("regex failed to
capture"))`), parse of the count field (empty → 1; u32 overflow →
`Err(InvalidFormat("invalid count"))`), then the rest of the function
(`fromStrWithCount`).  The digit fields delivered by `splitToken` are ASCII,
so the u32 parses need only the value bound here; the Unicode-complete model
is `Dice.from_str_full` below, and the two agree on ASCII tokens
(`from_str_full_eq_ascii`). -/
def Dice.from_str (s : List Char) : FromStrResult :=
  match splitToken s with
  | none => .err (.InvalidFormat "regex failed to capture")
  | some (cnt, sidesStr) =>
    if cnt.isEmpty then fromStrWithCount 1 sidesStr
    else if parseDigits cnt < U32_LIM then fromStrWithCount (parseDigits cnt) sidesStr
    else .err (.InvalidFormat "invalid count")

/-- The range table of the Unicode general category Nd (decimal digit),
which is the regex crate's default class `\d` (the program's pattern does
not opt out with `(?-u)`); table as of Unicode 15.0.  Every code point the
theorems below rely on — the ASCII digits, the Arabic-Indic digits
U+0660–U+0669, and all ASCII non-digits — has the same classification in
every Unicode version the crate has shipped. -/
def ndRanges : List (Nat × Nat) :=
  [(0x30, 0x39), (0x660, 0x669), (0x6F0, 0x6F9), (0x7C0, 0x7C9),
   (0x966, 0x96F), (0x9E6, 0x9EF), (0xA66, 0xA6F), (0xAE6, 0xAEF),
   (0xB66, 0xB6F), (0xBE6, 0xBEF), (0xC66, 0xC6F), (0xCE6, 0xCEF),
   (0xD66, 0xD6F), (0xDE6, 0xDEF), (0xE50, 0xE59), (0xED0, 0xED9),
   (0xF20, 0xF29), (0x1040, 0x1049), (0x1090, 0x1099), (0x17E0, 0x17E9),
   (0x1810, 0x1819), (0x1946, 0x194F), (0x19D0, 0x19D9), (0x1A80, 0x1A89),
   (0x1A90, 0x1A99), (0x1B50, 0x1B59), (0x1BB0, 0x1BB9), (0x1C40, 0x1C49),
   (0x1C50, 0x1C59), (0xA620, 0xA629), (0xA8D0, 0xA8D9), (0xA900, 0xA909),
   (0xA9D0, 0xA9D9), (0xA9F0, 0xA9F9), (0xAA50, 0xAA59), (0xABF0, 0xABF9),
   (0xFF10, 0xFF19), (0x104A0, 0x104A9), (0x10D30, 0x10D39),
   (0x11066, 0x1106F), (0x110F0, 0x110F9), (0x11136, 0x1113F),
   (0x111D0, 0x111D9), (0x112F0, 0x112F9), (0x11450, 0x11459),
   (0x114D0, 0x114D9), (0x11650, 0x11659), (0x116C0, 0x116C9),
   (0x11730, 0x11739), (0x118E0, 0x118E9), (0x11950, 0x11959),
   (0x11C50, 0x11C59), (0x11D50, 0x11D59), (0x11DA0, 0x11DA9),
   (0x11F50, 0x11F59), (0x16A60, 0x16A69), (0x16AC0, 0x16AC9),
   (0x16B50, 0x16B59), (0x1D7CE, 0x1D7FF), (0x1E140, 0x1E149),
   (0x1E2F0, 0x1E2F9), (0x1E4F0, 0x1E4F9), (0x1E950, 0x1E959),
   (0x1FBF0, 0x1FBF9)]

/-- The regex class `\d` of the program's pattern: a Unicode Nd digit. -/
def isRegexDigit (c : Char) : Bool :=
  ndRanges.any fun r => r.1 ≤ c.toNat && c.toNat ≤ r.2

/-- The anchored match of `^(?P<count>\d*)d(?P<sides>\d+)$` with the true
Unicode digit class.  `d` is not an Nd digit, so the decomposition is again
the maximal digit prefix, the separator, and a nonempty all-digit rest. -/
def splitTokenFull (s : List Char) : Option (List Char × List Char) :=
  match s.dropWhile isRegexDigit with
  | [] => none
  | a :: rest =>
    if a = 'd' ∧ rest ≠ [] ∧ rest.all isRegexDigit then some (s.takeWhile isRegexDigit, rest)
    else none

/-- Lines 113-124 of src/main.rs over a possibly non-ASCII sides field:
Rust's `u32::from_str` succeeds exactly on ASCII digit strings with value
below 2^32, so a sides field holding a non-ASCII Nd digit also makes the
`.unwrap()` panic. -/
def fromStrWithCountFull (count : Nat) (sidesStr : List Char) : FromStrResult :=
  if count < 1 then .err (.InvalidFormat "count must be at least 1")
  else if sidesStr.all isDigitCh ∧ parseDigits sidesStr < U32_LIM then
    match Dice.new count (parseDigits sidesStr) with
    | .ok d => .ok d
    | .error m => .panicked m
  else .panicked "called unwrap on an Err value"

/-- `Dice::from_str` (src/main.rs lines 91-125) with the Unicode-complete
regex class.  A count field that `u32::from_str` rejects — non-ASCII Nd
digits included — is mapped to the `"invalid count"` error; a sides field it
rejects hits the `.unwrap()` panic (`fromStrWithCountFull`). -/
def Dice.from_str_full (s : List Char) : FromStrResult :=
  match splitTokenFull s with
  | none => .err (.InvalidFormat "regex failed to capture")
  | some (cnt, sidesStr) =>
    if cnt.isEmpty then fromStrWithCountFull 1 sidesStr
    else if cnt.all isDigitCh ∧ parseDigits cnt < U32_LIM then
      fromStrWithCountFull (parseDigits cnt) sidesStr
    else .err (.InvalidFormat "invalid count")

/-- The character for a decimal digit value. -/
def digitChar (d : Nat) : Char := Char.ofNat (48 + d)

/-- Digits of `n`, most significant first, by repeated division by 10; the
first argument is structural fuel (any fuel ≥ n computes all digits). -/
def natDecimalAux : Nat → Nat → List Char
  | 0, _ => []
  | fuel + 1, n =>
    if n = 0 then [] else natDecimalAux fuel (n / 10) ++ [digitChar (n % 10)]

/-- Decimal rendering of a natural number (Rust's `{}` formatting of `u32`). -/
def natDecimal (n : Nat) : List Char :=
  if n = 0 then ['0'] else natDecimalAux n n

/-- `Display for Dice` (src/main.rs lines 83-87): `format!("{}d{}", count, sides)`. -/
def Dice.display (d : Dice) : List Char :=
  natDecimal d.count ++ 'd' :: natDecimal d.sides

/-- `rand`'s `gen_range(low, high)` applied to one raw draw `r` of the
stream: uniform on the half-open range `[low, high)` (for uniform `r`),
aborting (`none`) when `low ≥ high`, as the library panics there. -/
def genRange (low high r : Nat) : Option Nat :=
  if low < high then some (low + r % (high - low)) else none

/-- `Dice::roll` (src/main.rs lines 75-80): `count` draws of
`gen_range(1, sides + 1)`, where `sides + 1` is u32 arithmetic, hence the
`% 2^32`.  At `sides = u32::MAX` the addition overflows and the roll aborts
(in a debug build the add itself panics; in release it wraps to 0 and
`gen_range(1, 0)` panics): both abort, modelled as `none`. -/
def Dice.roll (d : Dice) (rng : Nat → Nat) : Option (List Nat) :=
  (List.range d.count).mapM fun i => genRange 1 ((d.sides + 1) % U32_LIM) (rng i)

/-- `rolls.iter().sum::<u32>()` (src/main.rs line 157): wrapping u32 sum
(a debug build would panic at the first overflowing addition; release wraps). -/
def iterSum (l : List Nat) : Nat := l.foldl (fun a x => (a + x) % U32_LIM) 0

/-- `rolls.iter().max()` (src/main.rs lines 160-166, before the `.expect`):
`none` exactly on the empty sequence. -/
def iterMax (l : List Nat) : Option Nat :=
  l.foldl (fun acc x => match acc with | none => some x | some m => some (Nat.max m x)) none

/-- `rolls.iter().min()` (src/main.rs lines 167-173, before the `.expect`). -/
def iterMin (l : List Nat) : Option Nat :=
  l.foldl (fun acc x => match acc with | none => some x | some m => some (Nat.min m x)) none

/-- Rust `Debug` formatting of a `Vec<u32>`, as `format!("{:?}", rolls)`
produces it (src/main.rs line 156): `[v1, v2, ...]`, comma-space separated. -/
def debugVec (l : List Nat) : List Char :=
  '[' :: (List.intercalate [',', ' '] (l.map natDecimal)) ++ [']']

/-- The output line of `main` for one die when no aggregate is selected
(src/main.rs lines 152-156): `format!("{} {}", d, format!("{:?}", rolls))`. -/
def renderLineRaw (d : Dice) (rolls : List Nat) : List Char :=
  d.display ++ ' ' :: debugVec rolls

/-! ### Decimal rendering round-trips through `parseDigits` -/

theorem isDigitCh_digitChar {d : Nat} (h : d < 10) : isDigitCh (digitChar d) = true := by
  interval_cases d <;> rfl

theorem digitVal_digitChar {d : Nat} (h : d < 10) : digitVal (digitChar d) = d := by
  interval_cases d <;> rfl

theorem natDecimalAux_all_digit (fuel : Nat) :
    ∀ n, (natDecimalAux fuel n).all isDigitCh = true := by
  induction fuel with
  | zero => intro n; rfl
  | succ fuel ih =>
    intro n
    unfold natDecimalAux
    split
    · rfl
    · rw [List.all_append, ih (n / 10)]
      simp only [List.all_cons, List.all_nil, Bool.and_true, Bool.true_and]
      exact isDigitCh_digitChar (Nat.mod_lt n (by norm_num))

theorem natDecimal_all_digit (n : Nat) : (natDecimal n).all isDigitCh = true := by
  unfold natDecimal
  split
  · rfl
  · exact natDecimalAux_all_digit n n

theorem natDecimal_ne_nil (n : Nat) : natDecimal n ≠ [] := by
  unfold natDecimal
  split
  · simp
  · next h =>
    cases n with
    | zero => exact absurd rfl h
    | succ m =>
      unfold natDecimalAux
      rw [if_neg h]
      simp

theorem parseDigits_natDecimalAux (fuel : Nat) :
    ∀ n a, n ≤ fuel →
      (natDecimalAux fuel n).foldl (fun x c => x * 10 + digitVal c) a
        = a * 10 ^ (natDecimalAux fuel n).length + n := by
  induction fuel with
  | zero =>
    intro n a hn
    interval_cases n
    simp [natDecimalAux]
  | succ fuel ih =>
    intro n a hn
    by_cases h0 : n = 0
    · subst h0
      simp [natDecimalAux]
    · have hdiv : n / 10 ≤ fuel := by
        have := Nat.div_lt_self (Nat.pos_of_ne_zero h0) (by norm_num : (1 : Nat) < 10)
        omega
      unfold natDecimalAux
      simp only [if_neg h0]
      rw [List.foldl_append, ih (n / 10) a hdiv]
      simp only [List.foldl_cons, List.foldl_nil, List.length_append, List.length_cons,
        List.length_nil]
      rw [digitVal_digitChar (Nat.mod_lt n (by norm_num))]
      generalize (natDecimalAux fuel (n / 10)).length = k
      calc (a * 10 ^ k + n / 10) * 10 + n % 10
          = a * (10 ^ k * 10) + (n / 10 * 10 + n % 10) := by ring
        _ = a * 10 ^ (k + (0 + 1)) + n := by
            rw [show k + (0 + 1) = k + 1 by omega, pow_succ]
            exact congrArg _ (by omega)

theorem parseDigits_natDecimal (n : Nat) : parseDigits (natDecimal n) = n := by
  unfold natDecimal
  split
  · next h => subst h; rfl
  · unfold parseDigits
    rw [parseDigits_natDecimalAux n n 0 (Nat.le_refl n)]
    simp

/-! ### The anchored regex match on rendered descriptors -/

theorem dropWhile_append_all {p : Char → Bool} {A B : List Char} (h : ∀ c ∈ A, p c) :
    (A ++ B).dropWhile p = B.dropWhile p := by
  induction A with
  | nil => rfl
  | cons a T ih =>
    rw [List.cons_append, List.dropWhile_cons_of_pos (h a (by simp))]
    exact ih fun c hc => h c (by simp [hc])

theorem splitToken_display (a b : Nat) :
    splitToken (natDecimal a ++ 'd' :: natDecimal b) = some (natDecimal a, natDecimal b) := by
  have hA : ∀ c ∈ natDecimal a, isDigitCh c := by
    have h := natDecimal_all_digit a
    rw [List.all_eq_true] at h
    exact h
  have h1 : (natDecimal a ++ 'd' :: natDecimal b).dropWhile isDigitCh = 'd' :: natDecimal b := by
    rw [dropWhile_append_all hA, List.dropWhile_cons_of_neg (by decide)]
  have h2 : (natDecimal a ++ 'd' :: natDecimal b).takeWhile isDigitCh = natDecimal a := by
    rw [List.takeWhile_append_of_pos hA, List.takeWhile_cons_of_neg (by decide),
      List.append_nil]
  unfold splitToken
  rw [h1]
  simp only []
  rw [if_pos ⟨trivial, natDecimal_ne_nil b, natDecimal_all_digit b⟩, h2]

/-! ### Inversion of a successful parse -/

theorem Dice.new_ok {count sides : Nat} {d : Dice} (h : Dice.new count sides = .ok d) :
    d = ⟨count, sides⟩ ∧ count ≠ 0 ∧ sides ≠ 0 := by
  unfold Dice.new at h
  split at h
  · simp at h
  · split at h
    · simp at h
    · next hc hs =>
      simp only [Except.ok.injEq] at h
      exact ⟨h.symm, hc, hs⟩

theorem fromStrWithCount_ok {count : Nat} {sd : List Char} {d : Dice}
    (h : fromStrWithCount count sd = .ok d) :
    d = ⟨count, parseDigits sd⟩ ∧ 1 ≤ count ∧ 1 ≤ parseDigits sd ∧ parseDigits sd < U32_LIM := by
  unfold fromStrWithCount at h
  split at h
  · simp at h
  · next hlt =>
    split at h
    · next hslim =>
      split at h
      · next x heq =>
        simp only [FromStrResult.ok.injEq] at h
        obtain ⟨hx, hc0, hs0⟩ := Dice.new_ok heq
        subst h
        exact ⟨hx, Nat.one_le_iff_ne_zero.mpr hc0, Nat.one_le_iff_ne_zero.mpr hs0, hslim⟩
      · simp at h
    · simp at h

theorem from_str_ok_inv {s : List Char} {d : Dice} (h : Dice.from_str s = .ok d) :
    1 ≤ d.count ∧ d.count < U32_LIM ∧ 1 ≤ d.sides ∧ d.sides < U32_LIM := by
  unfold Dice.from_str at h
  split at h
  · simp at h
  · split at h
    · obtain ⟨hd, h1, h2, h3⟩ := fromStrWithCount_ok h
      subst hd
      exact ⟨h1, by norm_num [U32_LIM], h2, h3⟩
    · split at h
      · next hclim =>
        obtain ⟨hd, h1, h2, h3⟩ := fromStrWithCount_ok h
        subst hd
        exact ⟨h1, hclim, h2, h3⟩
      · simp at h

/-- Re-parsing the canonical rendering of an in-bounds descriptor succeeds
and reproduces the descriptor. -/
theorem from_str_display {count sides : Nat} (hc : 1 ≤ count) (hclim : count < U32_LIM)
    (hs : 1 ≤ sides) (hslim : sides < U32_LIM) :
    Dice.from_str (Dice.display ⟨count, sides⟩) = .ok ⟨count, sides⟩ := by
  show Dice.from_str (natDecimal count ++ 'd' :: natDecimal sides) = _
  unfold Dice.from_str
  rw [splitToken_display]
  simp only []
  rw [if_neg (by simp [List.isEmpty_iff, natDecimal_ne_nil count]),
    parseDigits_natDecimal, if_pos hclim]
  unfold fromStrWithCount
  rw [if_neg (by omega), parseDigits_natDecimal, if_pos hslim]
  unfold Dice.new
  rw [if_neg (by omega), if_neg (by omega)]

/-! ### Rolling -/

theorem genRange_lt {low high : Nat} (r : Nat) (h : low < high) :
    genRange low high r = some (low + r % (high - low)) := by
  unfold genRange
  rw [if_pos h]

theorem mapM_some {α β : Type} (f : α → Option β) (g : α → β) (L : List α)
    (h : ∀ x ∈ L, f x = some (g x)) : L.mapM f = some (L.map g) := by
  induction L with
  | nil => rfl
  | cons a T ih =>
    rw [List.mapM_cons, h a (by simp), ih (fun x hx => h x (by simp [hx]))]
    rfl

theorem mapM_some_length {α β : Type} (f : α → Option β) (L : List α) (l : List β)
    (h : L.mapM f = some l) : l.length = L.length := by
  induction L generalizing l with
  | nil =>
    rw [List.mapM_nil] at h
    simp only [pure, Option.some.injEq] at h
    subst h
    rfl
  | cons a T ih =>
    rw [List.mapM_cons] at h
    cases hfa : f a with
    | none => rw [hfa] at h; simp [Option.bind] at h
    | some x =>
      rw [hfa] at h
      cases hT : T.mapM f with
      | none => rw [hT] at h; simp [Option.bind] at h
      | some xs =>
        rw [hT] at h
        simp only [Option.bind_some, Option.pure_def, Option.bind_eq_bind,
          Option.some_bind, Option.some.injEq] at h
        subst h
        simp [ih xs hT]

/-- `Dice::roll` when the sampling bound does not overflow: each draw is
`1 + r % sides`, in `[1, sides]`. -/
theorem roll_spec (d : Dice) (rng : Nat → Nat) (hs : 1 ≤ d.sides)
    (hlim : d.sides + 1 < U32_LIM) :
    d.roll rng = some ((List.range d.count).map fun i => 1 + rng i % d.sides) := by
  unfold Dice.roll
  rw [Nat.mod_eq_of_lt hlim]
  refine mapM_some _ _ _ (fun i _ => ?_)
  rw [genRange_lt _ (by omega)]
  norm_num

theorem roll_length {d : Dice} {rng : Nat → Nat} {l : List Nat}
    (h : d.roll rng = some l) : l.length = d.count := by
  unfold Dice.roll at h
  have hlen := mapM_some_length _ _ _ h
  simpa using hlen

/-! ### Aggregates -/

theorem iterMax_go (l : List Nat) (m : Nat) :
    l.foldl (fun acc x => match acc with | none => some x | some m => some (Nat.max m x))
        (some m) = some (l.foldl Nat.max m) := by
  induction l generalizing m with
  | nil => rfl
  | cons a T ih =>
    simp only [List.foldl_cons]
    exact ih (Nat.max m a)

theorem iterMin_go (l : List Nat) (m : Nat) :
    l.foldl (fun acc x => match acc with | none => some x | some m => some (Nat.min m x))
        (some m) = some (l.foldl Nat.min m) := by
  induction l generalizing m with
  | nil => rfl
  | cons a T ih =>
    simp only [List.foldl_cons]
    exact ih (Nat.min m a)

theorem foldl_max_mem (l : List Nat) (m : Nat) :
    l.foldl Nat.max m = m ∨ l.foldl Nat.max m ∈ l := by
  induction l generalizing m with
  | nil => exact Or.inl rfl
  | cons a T ih =>
    simp only [List.foldl_cons]
    rcases ih (Nat.max m a) with h | h
    · rcases Nat.le_total m a with hle | hle
      · exact Or.inr (by
          rw [h, Nat.max_eq_max, max_eq_right hle]
          exact List.mem_cons_self a T)
      · exact Or.inl (h.trans (by rw [Nat.max_eq_max]; exact max_eq_left hle))
    · exact Or.inr (List.mem_cons_of_mem a h)

theorem le_foldl_max (l : List Nat) (m : Nat) : m ≤ l.foldl Nat.max m := by
  induction l generalizing m with
  | nil => exact Nat.le_refl m
  | cons a T ih =>
    simp only [List.foldl_cons]
    exact Nat.le_trans (Nat.le_max_left m a) (ih (Nat.max m a))

theorem foldl_max_ge (l : List Nat) (m : Nat) : ∀ x ∈ l, x ≤ l.foldl Nat.max m := by
  induction l generalizing m with
  | nil => intro x hx; cases hx
  | cons a T ih =>
    intro x hx
    simp only [List.foldl_cons]
    rcases List.mem_cons.mp hx with rfl | hx
    · exact Nat.le_trans (Nat.le_max_right m x) (le_foldl_max T (Nat.max m x))
    · exact ih (Nat.max m a) x hx

theorem foldl_min_mem (l : List Nat) (m : Nat) :
    l.foldl Nat.min m = m ∨ l.foldl Nat.min m ∈ l := by
  induction l generalizing m with
  | nil => exact Or.inl rfl
  | cons a T ih =>
    simp only [List.foldl_cons]
    rcases ih (Nat.min m a) with h | h
    · rcases Nat.le_total m a with hle | hle
      · exact Or.inl (h.trans (by rw [Nat.min_eq_min]; exact min_eq_left hle))
      · exact Or.inr (by
          rw [h, Nat.min_eq_min, min_eq_right hle]
          exact List.mem_cons_self a T)
    · exact Or.inr (List.mem_cons_of_mem a h)

theorem foldl_min_le (l : List Nat) (m : Nat) : l.foldl Nat.min m ≤ m := by
  induction l generalizing m with
  | nil => exact Nat.le_refl m
  | cons a T ih =>
    simp only [List.foldl_cons]
    exact Nat.le_trans (ih (Nat.min m a)) (Nat.min_le_left m a)

theorem foldl_min_le_mem (l : List Nat) (m : Nat) : ∀ x ∈ l, l.foldl Nat.min m ≤ x := by
  induction l generalizing m with
  | nil => intro x hx; cases hx
  | cons a T ih =>
    intro x hx
    simp only [List.foldl_cons]
    rcases List.mem_cons.mp hx with rfl | hx
    · exact Nat.le_trans (foldl_min_le T (Nat.min m x)) (Nat.min_le_right m x)
    · exact ih (Nat.min m a) x hx

theorem iterMax_spec (l : List Nat) (h : l ≠ []) :
    ∃ m, iterMax l = some m ∧ m ∈ l ∧ ∀ x ∈ l, x ≤ m := by
  cases l with
  | nil => exact absurd rfl h
  | cons a T =>
    refine ⟨T.foldl Nat.max a, ?_, ?_, ?_⟩
    · unfold iterMax
      simp only [List.foldl_cons]
      exact iterMax_go T a
    · rcases foldl_max_mem T a with hm | hm
      · rw [hm]; exact List.mem_cons_self a T
      · exact List.mem_cons_of_mem a hm
    · intro x hx
      rcases List.mem_cons.mp hx with rfl | hx
      · exact le_foldl_max T x
      · exact foldl_max_ge T a x hx

theorem iterMin_spec (l : List Nat) (h : l ≠ []) :
    ∃ m, iterMin l = some m ∧ m ∈ l ∧ ∀ x ∈ l, m ≤ x := by
  cases l with
  | nil => exact absurd rfl h
  | cons a T =>
    refine ⟨T.foldl Nat.min a, ?_, ?_, ?_⟩
    · unfold iterMin
      simp only [List.foldl_cons]
      exact iterMin_go T a
    · rcases foldl_min_mem T a with hm | hm
      · rw [hm]; exact List.mem_cons_self a T
      · exact List.mem_cons_of_mem a hm
    · intro x hx
      rcases List.mem_cons.mp hx with rfl | hx
      · exact foldl_min_le T x
      · exact foldl_min_le_mem T a x hx

theorem iterSum_go (l : List Nat) (a : Nat) :
    l.foldl (fun x y => (x + y) % U32_LIM) (a % U32_LIM) = (a + l.sum) % U32_LIM := by
  induction l generalizing a with
  | nil => simp
  | cons b T ih =>
    simp only [List.foldl_cons, List.sum_cons]
    rw [Nat.mod_add_mod, ih (a + b)]
    ring_nf

theorem iterSum_eq_sum_mod (l : List Nat) : iterSum l = l.sum % U32_LIM := by
  unfold iterSum
  have h := iterSum_go l 0
  simpa using h

/-! ### Further parse helpers -/

theorem from_str_split {s cnt sd : List Char} (hsp : splitToken s = some (cnt, sd)) :
    Dice.from_str s =
      if cnt.isEmpty then fromStrWithCount 1 sd
      else if parseDigits cnt < U32_LIM then fromStrWithCount (parseDigits cnt) sd
      else .err (.InvalidFormat "invalid count") := by
  unfold Dice.from_str
  rw [hsp]

theorem Dice.new_sides_zero {count : Nat} (hc : count ≠ 0) :
    Dice.new count 0 = .error "sides must be greater than 0" := by
  unfold Dice.new
  rw [if_neg hc, if_pos rfl]

theorem fromStrWithCount_sides_zero {count : Nat} {sd : List Char} (hc : 1 ≤ count)
    (h0 : parseDigits sd = 0) :
    fromStrWithCount count sd = .panicked "sides must be greater than 0" := by
  unfold fromStrWithCount
  rw [if_neg (by omega), h0, if_pos (by norm_num [U32_LIM]), Dice.new_sides_zero (by omega)]

theorem fromStrWithCount_sides_overflow {count : Nat} {sd : List Char} (hc : 1 ≤ count)
    (hov : U32_LIM ≤ parseDigits sd) :
    fromStrWithCount count sd = .panicked "called unwrap on an Err value" := by
  unfold fromStrWithCount
  rw [if_neg (Nat.not_lt.mpr hc), if_neg (Nat.not_lt.mpr hov)]

/-! ### The Unicode digit class and the full parser model -/

theorem isRegexDigit_eq_ascii {c : Char} (h : c.toNat < 128) :
    isRegexDigit c = isDigitCh c := by
  have htail : ∀ r ∈ ndRanges.tail, 1632 ≤ r.1 := by decide
  unfold isRegexDigit
  rw [show ndRanges = (48, 57) :: ndRanges.tail from rfl, List.any_cons]
  have h2 : ndRanges.tail.any (fun r => r.1 ≤ c.toNat && c.toNat ≤ r.2) = false := by
    rw [List.any_eq_false]
    intro r hr
    have h1 := htail r hr
    simp only [Bool.and_eq_true, decide_eq_true_eq, not_and]
    intro hle
    omega
  rw [h2, Bool.or_false]
  rfl

theorem takeWhile_congr_of_mem {p q : Char → Bool} {s : List Char}
    (h : ∀ c ∈ s, p c = q c) : s.takeWhile p = s.takeWhile q := by
  induction s with
  | nil => rfl
  | cons a t ih =>
    simp only [List.takeWhile_cons]
    rw [h a (by simp)]
    cases hq : q a
    · simp
    · simp [ih (fun c hc => h c (by simp [hc]))]

theorem dropWhile_congr_of_mem {p q : Char → Bool} {s : List Char}
    (h : ∀ c ∈ s, p c = q c) : s.dropWhile p = s.dropWhile q := by
  induction s with
  | nil => rfl
  | cons a t ih =>
    simp only [List.dropWhile_cons]
    rw [h a (by simp)]
    cases hq : q a
    · simp
    · simp [ih (fun c hc => h c (by simp [hc]))]

theorem all_congr_of_mem {p q : Char → Bool} {s : List Char}
    (h : ∀ c ∈ s, p c = q c) : s.all p = s.all q := by
  induction s with
  | nil => rfl
  | cons a t ih =>
    simp only [List.all_cons]
    rw [h a (by simp), ih (fun c hc => h c (by simp [hc]))]

theorem splitToken_inv {s cnt sd : List Char} (h : splitToken s = some (cnt, sd)) :
    cnt.all isDigitCh = true ∧ sd.all isDigitCh = true := by
  unfold splitToken at h
  cases hdrop : s.dropWhile isDigitCh with
  | nil => rw [hdrop] at h; cases h
  | cons a rest =>
    rw [hdrop] at h
    simp only [] at h
    split at h
    · next hcond =>
      obtain ⟨cnt_eq, sd_eq⟩ : s.takeWhile isDigitCh = cnt ∧ rest = sd := by
        simpa using h
      constructor
      · rw [← cnt_eq, List.all_eq_true]
        intro c hc
        exact List.mem_takeWhile_imp hc
      · rw [← sd_eq]
        exact hcond.2.2
    · cases h

theorem fromStrWithCountFull_eq {sd : List Char} (hsd : sd.all isDigitCh = true)
    (count : Nat) : fromStrWithCountFull count sd = fromStrWithCount count sd := by
  unfold fromStrWithCountFull fromStrWithCount
  simp only [hsd, eq_self_iff_true, true_and]

theorem splitTokenFull_eq_ascii {s : List Char} (h : ∀ c ∈ s, c.toNat < 128) :
    splitTokenFull s = splitToken s := by
  have hpq : ∀ c ∈ s, isRegexDigit c = isDigitCh c := fun c hc => isRegexDigit_eq_ascii (h c hc)
  unfold splitTokenFull splitToken
  rw [dropWhile_congr_of_mem hpq, takeWhile_congr_of_mem hpq]
  cases hdrop : s.dropWhile isDigitCh with
  | nil => rfl
  | cons a rest =>
    have hrest : ∀ c ∈ rest, isRegexDigit c = isDigitCh c := by
      intro c hc
      refine hpq c ?_
      have hmem : c ∈ s.dropWhile isDigitCh := by
        rw [hdrop]
        exact List.mem_cons_of_mem a hc
      have hsplit : s = s.takeWhile isDigitCh ++ s.dropWhile isDigitCh :=
        (List.takeWhile_append_dropWhile isDigitCh s).symm
      rw [hsplit, List.mem_append]
      exact Or.inr hmem
    simp only []
    rw [all_congr_of_mem hrest]

/-- On an all-ASCII token the full parser model and the ASCII restriction
used by the other theorems coincide. -/
theorem from_str_full_eq_ascii {s : List Char} (h : ∀ c ∈ s, c.toNat < 128) :
    Dice.from_str_full s = Dice.from_str s := by
  unfold Dice.from_str_full Dice.from_str
  rw [splitTokenFull_eq_ascii h]
  cases hsp : splitToken s with
  | none => rfl
  | some pair =>
    obtain ⟨cnt, sd⟩ := pair
    obtain ⟨hcnt, hsd⟩ := splitToken_inv hsp
    simp only [fromStrWithCountFull_eq hsd, hcnt, eq_self_iff_true, true_and]

theorem splitTokenFull_none_of_foreign {s : List Char} {c : Char} (hc : c ∈ s)
    (hnd : isRegexDigit c = false) (hd : c ≠ 'd') : splitTokenFull s = none := by
  unfold splitTokenFull
  cases hdrop : s.dropWhile isRegexDigit with
  | nil => rfl
  | cons a rest =>
    have hP : ¬(a = 'd' ∧ rest ≠ [] ∧ rest.all isRegexDigit) := by
      rintro ⟨rfl, hne, hall⟩
      have hsplit : s = s.takeWhile isRegexDigit ++ s.dropWhile isRegexDigit :=
        (List.takeWhile_append_dropWhile isRegexDigit s).symm
      rw [hsplit, List.mem_append] at hc
      rcases hc with hc | hc
      · have := List.mem_takeWhile_imp hc
        rw [hnd] at this
        cases this
      · rw [hdrop] at hc
        rcases List.mem_cons.mp hc with rfl | hc
        · exact hd rfl
        · have := List.all_eq_true.mp hall c hc
          rw [hnd] at this
          cases this
    simp only []
    rw [if_neg hP]

theorem from_str_full_foreign {s : List Char} {c : Char} (hc : c ∈ s)
    (hnd : isRegexDigit c = false) (hd : c ≠ 'd') :
    Dice.from_str_full s = .err (.InvalidFormat "regex failed to capture") := by
  unfold Dice.from_str_full
  rw [splitTokenFull_none_of_foreign hc hnd hd]

/-! ### Claims -/

/-- C1 (counterexample): the claim "a grammar-matching token whose values
violate the semantic bounds (`sides < 2` or `count < 1`) fails with a
returned error value — neither accepted nor a panic" is false on the code:
`"d1"` (sides = 1 < 2) is accepted as `{count: 1, sides: 1}`, and `"d0"`
panics inside `Dice::new` instead of returning an error. -/
theorem from_str_d1_accepts_d0_panics :
    Dice.from_str "d1".toList = .ok ⟨1, 1⟩ ∧
    Dice.from_str "d0".toList = .panicked "sides must be greater than 0" := by
  constructor <;> rfl

/-- C1 (amended): a grammar-matching token whose count field parses to 0
fails with the returned error `InvalidFormat "count must be at least 1"`;
but `sides` is only required to be ≥ 1, not ≥ 2: a token with sides
field 0 makes `Dice::new` panic (no returned error), and a token with
sides = 1 such as `"d1"` is accepted. -/
theorem from_str_semantic_bounds :
    (∀ s cnt sd : List Char, splitToken s = some (cnt, sd) → cnt ≠ [] →
      parseDigits cnt = 0 →
      Dice.from_str s = .err (.InvalidFormat "count must be at least 1")) ∧
    (∀ s cnt sd : List Char, splitToken s = some (cnt, sd) →
      (cnt = [] ∨ (1 ≤ parseDigits cnt ∧ parseDigits cnt < U32_LIM)) →
      parseDigits sd = 0 →
      Dice.from_str s = .panicked "sides must be greater than 0") ∧
    Dice.from_str "d1".toList = .ok ⟨1, 1⟩ := by
  refine ⟨?_, ?_, by rfl⟩
  · intro s cnt sd hsp hne h0
    rw [from_str_split hsp, if_neg (by simp [List.isEmpty_iff, hne]), h0,
      if_pos (by norm_num [U32_LIM])]
    unfold fromStrWithCount
    rw [if_pos (by omega)]
  · intro s cnt sd hsp hcnt h0
    rcases hcnt with rfl | ⟨h1, h2⟩
    · rw [from_str_split hsp, if_pos List.isEmpty_nil, fromStrWithCount_sides_zero (by omega) h0]
    · rw [from_str_split hsp,
        if_neg (by simp only [List.isEmpty_iff]; intro hnil; rw [hnil] at h1; simp [parseDigits] at h1),
        if_pos h2, fromStrWithCount_sides_zero h1 h0]

/-- C1 (witness): the amended statement at the concrete tokens `"0d6"`
(count 0, returned error) and `"d0"` (sides 0, panic). -/
theorem from_str_semantic_bounds_witness :
    Dice.from_str "0d6".toList = .err (.InvalidFormat "count must be at least 1") ∧
    Dice.from_str "d0".toList = .panicked "sides must be greater than 0" :=
  ⟨from_str_semantic_bounds.1 "0d6".toList ['0'] ['6'] (by rfl) (by decide) (by rfl),
   from_str_semantic_bounds.2.1 "d0".toList [] ['0'] (by rfl) (Or.inl rfl) (by rfl)⟩

/-- C2 (counterexample): the claim "for every descriptor with count ≥ 1 and
sides ≥ 2, roll produces a sequence of exactly count integers" is false at
the parser-reachable descriptor `{count: 1, sides: 4294967295}`: `roll`
aborts (the u32 bound `sides + 1` overflows) and produces no sequence. -/
theorem roll_aborts_at_u32_max : Dice.roll ⟨1, 4294967295⟩ (fun _ => 0) = none := by
  rfl

/-- C2 (amended): for every descriptor with `count ≥ 1` and
`2 ≤ sides ≤ 4294967294` (so that the u32 sampling bound `sides + 1` does
not overflow), `roll` produces exactly `count` values, each in `[1, sides]`
(each drawn from its own independent position of the injected uniform
stream). -/
theorem roll_bounds (d : Dice) (rng : Nat → Nat) (_hc : 1 ≤ d.count) (hs : 2 ≤ d.sides)
    (hlim : d.sides + 1 < U32_LIM) :
    ∃ l, d.roll rng = some l ∧ l.length = d.count ∧ ∀ v ∈ l, 1 ≤ v ∧ v ≤ d.sides := by
  refine ⟨_, roll_spec d rng (by omega) hlim, by simp, ?_⟩
  intro v hv
  simp only [List.mem_map] at hv
  obtain ⟨i, _, rfl⟩ := hv
  have hmod : rng i % d.sides < d.sides := Nat.mod_lt _ (by omega)
  omega

/-- C2 (witness): the amended statement at the descriptor `{count: 1, sides: 2}`
with the constant-zero draw stream. -/
theorem roll_bounds_witness :
    ∃ l, Dice.roll ⟨1, 2⟩ (fun _ => 0) = some l ∧ l.length = 1 ∧
      ∀ v ∈ l, 1 ≤ v ∧ v ≤ 2 :=
  roll_bounds ⟨1, 2⟩ (fun _ => 0) (by decide) (by decide) (by norm_num [U32_LIM])

/-- C3 (counterexample): the claim "any extraneous character anywhere in the
token is rejected as malformed" is false on the code: the regex class `\d`
is Unicode Nd, so the token `"d٦"` (sides field the Arabic-Indic digit six,
U+0666) matches the regex; `"٦".parse::<u32>()` then fails (Rust integer
parsing is ASCII-only) and the `.unwrap()` panics — the token is neither
rejected with a returned error nor accepted. -/
theorem from_str_unicode_digit_panics :
    Dice.from_str_full "d٦".toList = .panicked "called unwrap on an Err value" := by
  rfl

/-- C3 (amended): parsing matches the anchored grammar `<count>? "d" <sides>`
with `<count>`/`<sides>` drawn from the regex class `\d` = Unicode Nd:
`"d120"` parses to `{count: 1, sides: 120}` (empty count defaults to 1),
`"6d5"` to `{count: 6, sides: 5}`; `"5d"` (missing sides), `"-5d20"` and
`"5d-20"` (minus signs) are rejected, and in general any token containing a
character that is neither a `\d` digit nor `d` is rejected as malformed.
Tokens whose fields hold non-ASCII Nd digits are, however, not rejected as
malformed: they match the grammar and then fail the ASCII-only u32 parse —
the `"invalid count"` error for a count field, the `.unwrap()` panic for a
sides field. -/
theorem from_str_grammar_unicode :
    Dice.from_str_full "d120".toList = .ok ⟨1, 120⟩ ∧
    Dice.from_str_full "6d5".toList = .ok ⟨6, 5⟩ ∧
    Dice.from_str_full "5d".toList = .err (.InvalidFormat "regex failed to capture") ∧
    Dice.from_str_full "-5d20".toList = .err (.InvalidFormat "regex failed to capture") ∧
    Dice.from_str_full "5d-20".toList = .err (.InvalidFormat "regex failed to capture") ∧
    (∀ s : List Char, (∃ c ∈ s, isRegexDigit c = false ∧ c ≠ 'd') →
      Dice.from_str_full s = .err (.InvalidFormat "regex failed to capture")) ∧
    (∀ s cnt sd : List Char, splitTokenFull s = some (cnt, sd) → cnt.isEmpty = true →
      sd.all isDigitCh = false →
      Dice.from_str_full s = .panicked "called unwrap on an Err value") ∧
    (∀ s cnt sd : List Char, splitTokenFull s = some (cnt, sd) →
      cnt.all isDigitCh = false →
      Dice.from_str_full s = .err (.InvalidFormat "invalid count")) := by
  refine ⟨by rfl, by rfl, by rfl, by rfl, by rfl, ?_, ?_, ?_⟩
  · rintro s ⟨c, hc, hnd, hd⟩
    exact from_str_full_foreign hc hnd hd
  · intro s cnt sd hsp hemp hsd
    unfold Dice.from_str_full
    rw [hsp]
    simp only []
    rw [if_pos hemp]
    unfold fromStrWithCountFull
    rw [if_neg (by omega), if_neg (by intro hcon; rw [hsd] at hcon; simp at hcon)]
  · intro s cnt sd hsp hcnt
    unfold Dice.from_str_full
    rw [hsp]
    simp only []
    rw [if_neg (by
        intro hemp
        rw [List.isEmpty_iff] at hemp
        rw [hemp] at hcnt
        simp at hcnt),
      if_neg (by intro hcon; rw [hcnt] at hcon; simp at hcon)]

/-- C3 (witness): the amended statement at the concrete tokens `"xd6"`
(extraneous non-digit, rejected), `"d٦"` (non-ASCII Nd digit in the sides
field, panic), and `"٦d6"` (non-ASCII Nd digit in the count field, returned
error). -/
theorem from_str_grammar_unicode_witness :
    Dice.from_str_full "xd6".toList = .err (.InvalidFormat "regex failed to capture") ∧
    Dice.from_str_full "d٦".toList = .panicked "called unwrap on an Err value" ∧
    Dice.from_str_full "٦d6".toList = .err (.InvalidFormat "invalid count") :=
  ⟨from_str_grammar_unicode.2.2.2.2.2.1 "xd6".toList ⟨'x', by decide, by decide, by decide⟩,
   from_str_grammar_unicode.2.2.2.2.2.2.1 "d٦".toList [] ['٦'] (by rfl) (by rfl) (by rfl),
   from_str_grammar_unicode.2.2.2.2.2.2.2 "٦d6".toList ['٦'] ['6'] (by rfl) (by rfl)⟩

/-- C4 (counterexample): the claim "overflow of count or sides beyond the
integer width fails with a returned parse error, not a panic" is false for
the sides field: `"d4294967296"` makes `from_str` panic (the `Err` of
`parse::<u32>()` is `.unwrap()`ed) instead of returning an error. -/
theorem from_str_sides_overflow_panics :
    Dice.from_str "d4294967296".toList = .panicked "called unwrap on an Err value" := by
  rfl

/-- C4 (amended): overflow of the count field beyond u32 fails with the
returned error `InvalidFormat "invalid count"`, but overflow of the sides
field (once the count field is absent or parses in range with value ≥ 1)
panics at the `.unwrap()` instead of returning an error. -/
theorem from_str_overflow :
    (∀ s cnt sd : List Char, splitToken s = some (cnt, sd) → cnt ≠ [] →
      U32_LIM ≤ parseDigits cnt →
      Dice.from_str s = .err (.InvalidFormat "invalid count")) ∧
    (∀ s cnt sd : List Char, splitToken s = some (cnt, sd) →
      (cnt = [] ∨ (1 ≤ parseDigits cnt ∧ parseDigits cnt < U32_LIM)) →
      U32_LIM ≤ parseDigits sd →
      Dice.from_str s = .panicked "called unwrap on an Err value") := by
  constructor
  · intro s cnt sd hsp hne hov
    rw [from_str_split hsp, if_neg (by simp [List.isEmpty_iff, hne]), if_neg (by omega)]
  · intro s cnt sd hsp hcnt hov
    rcases hcnt with rfl | ⟨h1, h2⟩
    · rw [from_str_split hsp, if_pos List.isEmpty_nil,
        fromStrWithCount_sides_overflow (by omega) hov]
    · rw [from_str_split hsp,
        if_neg (by simp only [List.isEmpty_iff]; intro hnil; rw [hnil] at h1; simp [parseDigits] at h1),
        if_pos h2, fromStrWithCount_sides_overflow h1 hov]

/-- C4 (witness): the amended statement at the concrete tokens
`"4294967296d6"` (count overflow, returned error) and `"d4294967296"`
(sides overflow, panic). -/
theorem from_str_overflow_witness :
    Dice.from_str "4294967296d6".toList = .err (.InvalidFormat "invalid count") ∧
    Dice.from_str "d4294967296".toList = .panicked "called unwrap on an Err value" :=
  ⟨from_str_overflow.1 "4294967296d6".toList "4294967296".toList ['6'] (by rfl) (by decide)
      (by decide),
   from_str_overflow.2 "d4294967296".toList [] "4294967296".toList (by rfl) (Or.inl rfl)
      (by decide)⟩

/-- C5 (counterexample): the claim "the Sum aggregate renders the integer
sum of all elements" is false for the roll sequence
`[4000000000, 4000000000]` (reachable from the descriptor parsed from
`"2d4294967294"`): the u32 sum wraps to 3705032704 instead of 8000000000. -/
theorem iterSum_wraps :
    iterSum [4000000000, 4000000000] ≠ [4000000000, 4000000000].sum ∧
    iterSum [4000000000, 4000000000] = 3705032704 :=
  ⟨by decide, rfl⟩

/-- C5 (amended): for every non-empty roll sequence the Sum aggregate
computes the sum of all elements modulo 2^32 — equal to the integer sum
whenever that sum fits in a u32 — and the Max and Min aggregates compute
the maximum resp. minimum element of the sequence. -/
theorem aggregate_sum_max_min (l : List Nat) (h : l ≠ []) :
    iterSum l = l.sum % U32_LIM ∧
    (l.sum < U32_LIM → iterSum l = l.sum) ∧
    (∃ m, iterMax l = some m ∧ m ∈ l ∧ ∀ x ∈ l, x ≤ m) ∧
    (∃ m, iterMin l = some m ∧ m ∈ l ∧ ∀ x ∈ l, m ≤ x) :=
  ⟨iterSum_eq_sum_mod l,
   fun hlt => by rw [iterSum_eq_sum_mod l, Nat.mod_eq_of_lt hlt],
   iterMax_spec l h, iterMin_spec l h⟩

/-- C5 (witness): the amended statement at the concrete sequence `[2, 3]`. -/
theorem aggregate_sum_max_min_witness :
    iterSum [2, 3] = [2, 3].sum % U32_LIM ∧
    ([2, 3].sum < U32_LIM → iterSum [2, 3] = [2, 3].sum) ∧
    (∃ m, iterMax [2, 3] = some m ∧ m ∈ [2, 3] ∧ ∀ x ∈ [2, 3], x ≤ m) ∧
    (∃ m, iterMin [2, 3] = some m ∧ m ∈ [2, 3] ∧ ∀ x ∈ [2, 3], m ≤ x) :=
  aggregate_sum_max_min [2, 3] (by decide)

/-- C7: parsing a valid token and re-rendering the resulting descriptor in
the canonical form `<count>d<sides>` (defaulted count rendered as `1`)
round-trips: re-parsing the rendered string yields a descriptor equal to
the original. -/
theorem parse_render_roundtrip {s : List Char} {d : Dice}
    (h : Dice.from_str s = .ok d) : Dice.from_str d.display = .ok d := by
  obtain ⟨h1, h2, h3, h4⟩ := from_str_ok_inv h
  exact from_str_display h1 h2 h3 h4

/-- C7 (witness): the round-trip at the concrete token `"6d5"`. -/
theorem parse_render_roundtrip_witness :
    Dice.from_str (Dice.display ⟨6, 5⟩) = .ok ⟨6, 5⟩ :=
  parse_render_roundtrip (s := "6d5".toList) (by rfl)

/-- C8 (counterexample): the claim "with no aggregate, the output line for
token `2d4` with rolls [2, 3] is the space-joined `2d4 2 3`" is false: the
code prints the `Debug` rendering of the vector, so the line is
`2d4 [2, 3]`. -/
theorem raw_render_not_space_joined :
    renderLineRaw ⟨2, 4⟩ [2, 3] ≠ "2d4 2 3".toList := by
  decide

/-- C8 (amended): with no aggregate selected the output line is the
descriptor followed by the Rust `Debug` rendering of the roll vector
(bracketed, comma-space separated, roll order preserved): for token `"2d4"`
with rolls [2, 3] the line is `2d4 [2, 3]`. -/
theorem raw_render_debug_format :
    renderLineRaw ⟨2, 4⟩ [2, 3] = "2d4 [2, 3]".toList := by
  rfl

/-- C9: the empty-sequence (fatal `.expect`) branch of the Max and Min
aggregates is unreachable in normal operation: every roll sequence actually
produced from a descriptor with `count ≥ 1` is non-empty, so
`iter().max()`/`iter().min()` return a value. -/
theorem max_min_branch_unreachable {d : Dice} {rng : Nat → Nat} {l : List Nat}
    (hc : 1 ≤ d.count) (h : d.roll rng = some l) :
    l ≠ [] ∧ iterMax l ≠ none ∧ iterMin l ≠ none := by
  have hlen := roll_length h
  have hne : l ≠ [] := by
    intro hnil
    rw [hnil] at hlen
    simp only [List.length_nil] at hlen
    omega
  obtain ⟨m1, hm1, _, _⟩ := iterMax_spec l hne
  obtain ⟨m2, hm2, _, _⟩ := iterMin_spec l hne
  exact ⟨hne, by rw [hm1]; exact Option.some_ne_none m1, by rw [hm2]; exact Option.some_ne_none m2⟩

/-- C9 (witness): the statement at the descriptor `{count: 1, sides: 6}` with
the constant-zero draw stream, whose roll is `[1]`. -/
theorem max_min_branch_unreachable_witness :
    [1] ≠ ([] : List Nat) ∧ iterMax [1] ≠ none ∧ iterMin [1] ≠ none :=
  @max_min_branch_unreachable ⟨1, 6⟩ (fun _ => 0) [1] (by decide) (by rfl)

/-- C10: there is a parser-accepted token, `"d4294967295"`, whose descriptor
has `sides = u32::MAX`; on it `roll` computes the sampling bound
`sides + 1` in u32, which overflows, so the roll aborts (panics) instead of
returning a sequence — for every draw stream. -/
theorem roll_panics_from_parsed_token :
    Dice.from_str "d4294967295".toList = .ok ⟨1, 4294967295⟩ ∧
    ∀ rng : Nat → Nat, Dice.roll ⟨1, 4294967295⟩ rng = none := by
  refine ⟨by rfl, ?_⟩
  intro rng
  show (List.range 1).mapM (fun i => genRange 1 ((4294967295 + 1) % U32_LIM) (rng i)) = none
  rw [show (4294967295 + 1) % U32_LIM = 0 by norm_num [U32_LIM],
    show List.range 1 = [0] from rfl, List.mapM_cons]
  simp [genRange]

end DiceProg
